import Mathlib

/-!
Shallow embedding of the `aec_user_data_dashboard` repository.

The core piece is the time-series bucketizer of `DashboardEntry.chartData`
(src/unnamed/part_001, lines 43-121): a list of timestamped conversation
records plus a selected time range is turned into a fixed-cardinality series
of `(label, count)` chart points.  Timestamps are epoch milliseconds; the
result of the JavaScript `new Date(s).getTime()` parse is modelled as
`Option Int`, with `none` standing for `NaN` (an unparseable timestamp).
`Math.floor(t / intervalMs) * intervalMs` on exact integers is floor
division, i.e. `Int.fdiv`.  The JavaScript `Map` is modelled as an
association list with insertion-order semantics (`mapSet` replaces in place
or appends; `mapIncr` increments the first matching entry, the behavior of
`buckets.get(k)` followed by `bucket.count += 1`).  The `while` loop that
generates the buckets is modelled with an explicit fuel argument that is
provably large enough for the loop to stop on its own guard.

Also embedded: `calculateAverageRating` (src/unnamed/part_002, lines
385-391) and the sort-then-paginate logic of `RecentConversations.tsx` and
`NotesPage.tsx`.
-/

/-- A conversation record of the stats payload.  `created_at` holds the
result of parsing the ISO-8601 string: `some t` (epoch ms) on success,
`none` when the parse yields `NaN`. -/
structure Conversation where
  conversation_id : String
  user_id : String
  created_at : Option Int
deriving DecidableEq

/-- The four time ranges of `DashboardEntry` (part_001, line 6). -/
inductive TimeRange
  | h12
  | d1
  | d7
  | d30
deriving DecidableEq

/-- Lookback duration in ms per range (part_001, lines 52-79):
`startTime = now - lookbackMs`. -/
def lookbackMs : TimeRange → Int
  | .h12 => 12 * 60 * 60 * 1000
  | .d1 => 24 * 60 * 60 * 1000
  | .d7 => 7 * 24 * 60 * 60 * 1000
  | .d30 => 30 * 24 * 60 * 60 * 1000

/-- Bucket interval in ms per range (part_001, lines 52-79). -/
def intervalMs : TimeRange → Int
  | .h12 => 60 * 60 * 1000
  | .d1 => 2 * 60 * 60 * 1000
  | .d7 => 24 * 60 * 60 * 1000
  | .d30 => 24 * 60 * 60 * 1000

/-- A value of the bucket `Map` (part_001, line 89): a display label and an
event count. -/
structure Bucket where
  label : String
  count : Nat
deriving DecidableEq

/-- `Math.floor(t / intervalMs) * intervalMs` (part_001, lines 94 and 103):
the absolute-epoch-aligned bucket key of instant `t`. -/
def bucketKey (i t : Int) : Int :=
  Int.fdiv t i * i

/-- `Map.set` semantics on the association-list model: replace the value at
an existing key in place, otherwise append a fresh entry. -/
def mapSet (m : List (Int × Bucket)) (k : Int) (v : Bucket) : List (Int × Bucket) :=
  match m with
  | [] => [(k, v)]
  | (k2, v2) :: rest => if k2 = k then (k, v) :: rest else (k2, v2) :: mapSet rest k v

/-- `buckets.get(k)` followed by `bucket.count += 1` when the key is present
(part_001, lines 104-107); a missing key is a silent no-op. -/
def mapIncr (m : List (Int × Bucket)) (k : Int) : List (Int × Bucket) :=
  match m with
  | [] => []
  | (k2, v2) :: rest =>
    if k2 = k then (k2, ⟨v2.label, v2.count + 1⟩) :: rest else (k2, v2) :: mapIncr rest k

/-- The bucket-generating `while` loop (part_001, lines 93-98), with an
explicit fuel bound.  Each iteration with `current <= now` inserts the key
`bucketKey i current` with label `fmt current` and count `0`, then advances
`current` by the interval `i`.  The locale label formatter is the parameter
`fmt`. -/
def initLoop (fmt : Int → String) (i now : Int) : Nat → Int → List (Int × Bucket) → List (Int × Bucket)
  | 0, _, m => m
  | fuel + 1, current, m =>
    if current ≤ now then
      initLoop fmt i now fuel (current + i) (mapSet m (bucketKey i current) ⟨fmt current, 0⟩)
    else m

/-- The full bucket-initialization phase: run the `while` loop from
`startTime` with fuel that exceeds the number of iterations the guard
allows. -/
def initBuckets (fmt : Int → String) (i now start : Int) : List (Int × Bucket) :=
  initLoop fmt i now (((now - start).fdiv i).toNat + 1) start []

/-- The range filter (part_001, lines 83-86): `convDate >= startTime &&
convDate <= now`.  A `NaN` date fails both comparisons, so an unparseable
timestamp yields `false`. -/
def inRange (start now : Int) (c : Conversation) : Bool :=
  match c.created_at with
  | some t => decide (start ≤ t) && decide (t ≤ now)
  | none => false

/-- The counting `forEach` (part_001, lines 101-108): each event re-parses
its timestamp, computes its aligned key and increments the matching bucket;
events whose key has no bucket (and `NaN` keys) are dropped silently. -/
def countLoop (i : Int) (m : List (Int × Bucket)) : List Conversation → List (Int × Bucket)
  | [] => m
  | c :: rest =>
    countLoop i
      (match c.created_at with
       | some t => mapIncr m (bucketKey i t)
       | none => m) rest

/-- A chart point (part_001, lines 112-118): the bucket label and its
count, the key having been discarded after the sort. -/
structure ChartPoint where
  time : String
  conversations : Nat
deriving DecidableEq

/-- The bucketizer up to and including the sort by timestamp key (part_001,
lines 82-117): filter the events to the window, build and fill the buckets,
and sort the `Map` entries ascending by key.  The sort comparator
`(a, b) => a.timestamp - b.timestamp` is the stable ascending sort by
key. -/
def bucketEntries (fmt : Int → String) (range : TimeRange) (now : Int)
    (evs : List Conversation) : List (Int × Bucket) :=
  let start := now - lookbackMs range
  let i := intervalMs range
  let filtered := evs.filter (inRange start now)
  let m := countLoop i (initBuckets fmt i now start) filtered
  m.mergeSort (fun a b => decide (a.1 ≤ b.1))

/-- `chartData` (part_001, lines 43-121): the sorted series projected to
`(label, count)` pairs. -/
def chartData (fmt : Int → String) (range : TimeRange) (now : Int)
    (evs : List Conversation) : List ChartPoint :=
  (bucketEntries fmt range now evs).map fun e => ⟨e.2.label, e.2.count⟩

/-- Sum of all bucket counts of a series of chart points. -/
def chartCountSum (l : List ChartPoint) : Nat :=
  (l.map ChartPoint.conversations).sum

/-- Sum of all bucket counts of a list of keyed bucket entries. -/
def bucketCountSum (m : List (Int × Bucket)) : Nat :=
  (m.map fun p => p.2.count).sum

/-- Number of whole intervals in the lookback window; each lookback is an
exact multiple of its interval. -/
def stepCount : TimeRange → Int
  | .h12 => 12
  | .d1 => 12
  | .d7 => 7
  | .d30 => 30

/-- The claim-side bucket count: `ceil((now - startTime) / intervalMs) + 1`
with `now - startTime = lookbackMs`, written with integer ceiling
division. -/
def ceilBuckets (r : TimeRange) : Nat :=
  ((lookbackMs r + intervalMs r - 1).fdiv (intervalMs r)).toNat + 1

/-- The list of buckets the `while` loop produces, written as a plain
structural recursion: one bucket per step instant, keyed by the aligned
instant and labelled from the step instant itself. -/
def initSeq (fmt : Int → String) (i : Int) : Int → Nat → List (Int × Bucket)
  | _, 0 => []
  | current, n + 1 =>
    (bucketKey i current, ⟨fmt current, 0⟩) :: initSeq fmt i (current + i) n

/-- Number of iterations the `while` guard `current <= now` allows when the
step is `i`. -/
def iterCount (i now current : Int) : Nat :=
  if current ≤ now then ((now - current).fdiv i).toNat + 1 else 0

/-- A conversation info record of the sibling dashboard (part_002, lines
41-53 and RecentConversations.tsx, lines 5-17).  `generated_at` is the
parsed epoch-ms timestamp; `quality_rating` is the optional numeric rating,
`none` when the field is absent. -/
structure ConversationInfo where
  topic : String
  user_id : String
  generated_at : Int
  quality_rating : Option Rat
deriving DecidableEq

/-- A note record (NotesPage.tsx, lines 5-10), with the parsed epoch-ms
`created_at`. -/
structure NoteInfo where
  file_name : String
  user_id : String
  created_at : Int
deriving DecidableEq

/-- JavaScript truthiness of the optional numeric `quality_rating` used by
the filter `(c) => c.quality_rating` (part_002, line 386): `undefined` and
`0` are falsy, any other number is truthy. -/
def truthyRating (x : Option Rat) : Bool :=
  match x with
  | some r => decide (r ≠ 0)
  | none => false

/-- `calculateAverageRating` (part_002, lines 385-391): the number of
conversations with a truthy rating, then either `0` or the reduce-sum of
`quality_rating || 0` over all conversations divided by that count. -/
def calculateAverageRating (conversations : List ConversationInfo) : Rat :=
  let ratingsCount := (conversations.filter fun c => truthyRating c.quality_rating).length
  if ratingsCount = 0 then 0
  else
    (conversations.foldl (fun s conv => s + conv.quality_rating.getD 0) 0) / (ratingsCount : Rat)

/-- The claim-side description of `calculateAverageRating`: `0` when no
conversation has a truthy rating, otherwise the sum of `quality_rating`
over all conversations (missing ratings contributing `0`) divided by the
number of conversations whose rating is truthy. -/
def averageRatingSpec (conversations : List ConversationInfo) : Rat :=
  if ∀ c ∈ conversations, truthyRating c.quality_rating = false then 0
  else
    (conversations.map fun c => c.quality_rating.getD 0).sum /
      ((conversations.countP fun c => truthyRating c.quality_rating : Nat) : Rat)

/-- `conversationsPerPage` (RecentConversations.tsx, line 25). -/
def conversationsPerPage : Nat := 50

/-- `notesPerPage` (NotesPage.tsx, line 18). -/
def notesPerPage : Nat := 25

/-- `sortedConversations` (RecentConversations.tsx, lines 29-31): stable
sort by `generated_at` descending; the comparator
`new Date(b.generated_at) - new Date(a.generated_at)` orders `a` before `b`
exactly when the timestamp of `b` is at most that of `a`. -/
def sortedConversations (conversations : List ConversationInfo) : List ConversationInfo :=
  conversations.mergeSort (fun a b => decide (b.generated_at ≤ a.generated_at))

/-- `currentConversations` (RecentConversations.tsx, lines 34-39):
`slice((p - 1) * 50, p * 50)` of the sorted list. -/
def currentConversations (conversations : List ConversationInfo) (currentPage : Nat) :
    List ConversationInfo :=
  ((sortedConversations conversations).drop ((currentPage - 1) * conversationsPerPage)).take
    conversationsPerPage

/-- `totalPages` (RecentConversations.tsx, line 26): `ceil(length / 50)`. -/
def totalPagesConv (conversations : List ConversationInfo) : Nat :=
  (conversations.length + conversationsPerPage - 1) / conversationsPerPage

/-- `sortedNotes` (NotesPage.tsx, lines 22-24): stable sort by `created_at`
descending. -/
def sortedNotes (notes : List NoteInfo) : List NoteInfo :=
  notes.mergeSort (fun a b => decide (b.created_at ≤ a.created_at))

/-- `currentNotes` (NotesPage.tsx, lines 27-29): `slice((p - 1) * 25, p * 25)`
of the sorted list. -/
def currentNotes (notes : List NoteInfo) (currentPage : Nat) : List NoteInfo :=
  ((sortedNotes notes).drop ((currentPage - 1) * notesPerPage)).take notesPerPage

/-- `totalPages` (NotesPage.tsx, line 19): `ceil(length / 25)`. -/
def totalPagesNotes (notes : List NoteInfo) : Nat :=
  (notes.length + notesPerPage - 1) / notesPerPage

-- Basic facts about the range table.

theorem intervalMs_pos (r : TimeRange) : 0 < intervalMs r := by
  cases r <;> decide

theorem lookbackMs_pos (r : TimeRange) : 0 < lookbackMs r := by
  cases r <;> decide

theorem lookback_eq_steps (r : TimeRange) : lookbackMs r = intervalMs r * stepCount r := by
  cases r <;> decide

theorem stepCount_nonneg (r : TimeRange) : 0 ≤ stepCount r := by
  cases r <;> decide

-- Association-list map lemmas.

theorem mapSet_append {m : List (Int × Bucket)} {k : Int} (v : Bucket)
    (h : ∀ p ∈ m, p.1 ≠ k) : mapSet m k v = m ++ [(k, v)] := by
  induction m with
  | nil => rfl
  | cons p rest ih =>
    have hp : p.1 ≠ k := h p (by simp)
    cases p with
    | mk k2 v2 =>
      simp only [mapSet, if_neg hp, List.cons_append, List.cons.injEq, true_and]
      exact ih fun q hq => h q (by simp [hq])

theorem mapIncr_keys (m : List (Int × Bucket)) (k : Int) :
    (mapIncr m k).map Prod.fst = m.map Prod.fst := by
  induction m with
  | nil => rfl
  | cons p rest ih =>
    cases p with
    | mk k2 v2 =>
      by_cases hk : k2 = k
      · simp [mapIncr, hk]
      · simp [mapIncr, hk, ih]

theorem mapIncr_pairs (m : List (Int × Bucket)) (k : Int) :
    (mapIncr m k).map (fun p => (p.1, p.2.label)) = m.map (fun p => (p.1, p.2.label)) := by
  induction m with
  | nil => rfl
  | cons p rest ih =>
    cases p with
    | mk k2 v2 =>
      by_cases hk : k2 = k
      · simp [mapIncr, hk]
      · simp [mapIncr, hk, ih]

theorem mapIncr_of_not_mem {m : List (Int × Bucket)} {k : Int}
    (h : k ∉ m.map Prod.fst) : mapIncr m k = m := by
  induction m with
  | nil => rfl
  | cons p rest ih =>
    obtain ⟨k2, v2⟩ := p
    simp only [List.map_cons, List.mem_cons] at h
    push_neg at h
    simp only [mapIncr, if_neg (Ne.symm h.1 : k2 ≠ k)]
    rw [ih h.2]

theorem mapIncr_sum_mem {m : List (Int × Bucket)} {k : Int}
    (h : k ∈ m.map Prod.fst) :
    bucketCountSum (mapIncr m k) = bucketCountSum m + 1 := by
  induction m with
  | nil => simp at h
  | cons p rest ih =>
    obtain ⟨k2, v2⟩ := p
    by_cases hk : k2 = k
    · simp only [mapIncr, if_pos hk, bucketCountSum, List.map_cons, List.sum_cons]
      omega
    · simp only [List.map_cons, List.mem_cons] at h
      have hmem : k ∈ rest.map Prod.fst := by
        rcases h with h | h
        · exact absurd h.symm hk
        · exact h
      simp only [mapIncr, if_neg hk, bucketCountSum, List.map_cons, List.sum_cons]
      have := ih hmem
      simp only [bucketCountSum] at this
      omega

-- The straight-line closed form of the bucket initialization loop.

theorem initSeq_length (fmt : Int → String) (i : Int) :
    ∀ (n : Nat) (current : Int), (initSeq fmt i current n).length = n := by
  intro n
  induction n with
  | zero => intro current; rfl
  | succ n ih => intro current; simp [initSeq, ih]

theorem initSeq_sum (fmt : Int → String) (i : Int) :
    ∀ (n : Nat) (current : Int), bucketCountSum (initSeq fmt i current n) = 0 := by
  intro n
  induction n with
  | zero => intro current; rfl
  | succ n ih => intro current; simp [initSeq, bucketCountSum] at *; exact ih _

theorem bucketKey_add {i : Int} (hi : 0 < i) (t : Int) :
    bucketKey i (t + i) = bucketKey i t + i := by
  unfold bucketKey
  rw [Int.fdiv_eq_ediv _ hi.le, Int.fdiv_eq_ediv _ hi.le]
  have h1 : t + i = t + 1 * i := by ring
  rw [h1, Int.add_mul_ediv_right _ _ hi.ne']
  ring

theorem initSeq_pairs (fmt : Int → String) {i : Int} (hi : 0 < i) :
    ∀ (n : Nat) (current : Int),
      (initSeq fmt i current n).map (fun p => (p.1, p.2.label)) =
        (List.range n).map
          (fun (k : Nat) => (bucketKey i current + i * (k : Int), fmt (current + i * (k : Int)))) := by
  intro n
  induction n with
  | zero => intro current; rfl
  | succ n ih =>
    intro current
    rw [List.range_succ_eq_map]
    simp only [initSeq, List.map_cons, List.map_map, List.cons.injEq]
    refine ⟨by simp, ?_⟩
    rw [ih (current + i)]
    apply List.map_congr_left
    intro k _
    simp only [Function.comp_apply]
    rw [Prod.mk.injEq]
    refine ⟨?_, ?_⟩
    · rw [bucketKey_add hi]
      push_cast
      ring
    · congr 1
      push_cast
      ring

theorem iterCount_rec {i now current : Int} (hi : 0 < i) (h : current ≤ now) :
    iterCount i now current = iterCount i now (current + i) + 1 := by
  by_cases h2 : current + i ≤ now
  · have hd : 0 ≤ now - current - i := by linarith
    have e1 : (now - current).fdiv i = (now - current).fdiv i := rfl
    rw [iterCount, if_pos h, iterCount, if_pos h2]
    rw [Int.fdiv_eq_ediv _ hi.le, Int.fdiv_eq_ediv _ hi.le]
    have e2 : now - current = now - current - i + 1 * i := by ring
    have e3 : (now - current) / i = (now - current - i) / i + 1 := by
      rw [e2, Int.add_mul_ediv_right _ _ hi.ne']
      ring_nf
    have e4 : now - (current + i) = now - current - i := by ring
    have h5 : 0 ≤ (now - current - i) / i := Int.ediv_nonneg hd hi.le
    rw [e4]
    omega
  · rw [iterCount, if_pos h, iterCount, if_neg h2]
    have hd : 0 ≤ now - current := by linarith
    have hlt : now - current < i := by linarith
    rw [Int.fdiv_eq_ediv _ hi.le, Int.ediv_eq_zero_of_lt hd hlt]
    rfl

theorem initLoop_eq (fmt : Int → String) {i : Int} (hi : 0 < i) (now : Int) :
    ∀ (fuel : Nat) (current : Int) (m : List (Int × Bucket)),
      now - current < i * (fuel : Int) →
      (∀ p ∈ m, p.1 < bucketKey i current) →
      initLoop fmt i now fuel current m = m ++ initSeq fmt i current (iterCount i now current) := by
  intro fuel
  induction fuel with
  | zero =>
    intro current m hfuel hm
    have hcn : ¬ current ≤ now := by
      simp only [Nat.cast_zero, mul_zero] at hfuel
      intro hc
      linarith
    simp [initLoop, iterCount, if_neg hcn, initSeq]
  | succ fuel ih =>
    intro current m hfuel hm
    by_cases hcn : current ≤ now
    · have hfresh : ∀ p ∈ m, p.1 ≠ bucketKey i current := fun p hp => (hm p hp).ne
      rw [initLoop, if_pos hcn, mapSet_append _ hfresh]
      have hkey : bucketKey i (current + i) = bucketKey i current + i := bucketKey_add hi current
      have hfuel2 : now - (current + i) < i * (fuel : Int) := by
        have : i * ((fuel : Int) + 1) = i * (fuel : Int) + i := by ring
        push_cast at hfuel
        linarith [hfuel, this]
      have hm2 : ∀ p ∈ m ++ [(bucketKey i current, (⟨fmt current, 0⟩ : Bucket))],
          p.1 < bucketKey i (current + i) := by
        intro p hp
        rw [hkey]
        rcases List.mem_append.mp hp with hp | hp
        · exact lt_trans (hm p hp) (by linarith)
        · simp only [List.mem_singleton] at hp
          rw [hp]
          simp only []
          linarith
      rw [ih (current + i) _ hfuel2 hm2]
      rw [iterCount_rec hi hcn]
      simp [initSeq]
    · rw [initLoop, if_neg hcn]
      simp [iterCount, if_neg hcn, initSeq]

theorem initBuckets_eq (fmt : Int → String) {i : Int} (hi : 0 < i) (now start : Int) :
    initBuckets fmt i now start = initSeq fmt i start (iterCount i now start) := by
  rw [initBuckets]
  apply initLoop_eq fmt hi now _ start [] _ (by intro p hp; simp at hp)
  by_cases h : 0 ≤ now - start
  · rw [Int.fdiv_eq_ediv _ hi.le]
    have h1 : 0 ≤ (now - start) / i := Int.ediv_nonneg h hi.le
    have h2 : ((now - start) / i).toNat = (now - start) / i := Int.toNat_of_nonneg h1
    have h3 : (now - start) % i + i * ((now - start) / i) = now - start := Int.emod_add_ediv _ _
    have h4 : (now - start) % i < i := Int.emod_lt_of_pos _ hi
    push_cast [h2]
    nlinarith [h3, h4]
  · push_neg at h
    have h1 : (0 : Int) ≤ (((now - start).fdiv i).toNat : Int) := Int.natCast_nonneg _
    have : i * ((((now - start).fdiv i).toNat : Int) + 1) ≥ i := by nlinarith
    push_cast
    linarith

-- Counting-phase lemmas: the `forEach` preserves the key set, the labels
-- and the length of the bucket map, and adds one to the total count for
-- every event whose key has a bucket.

theorem countLoop_keys (i : Int) :
    ∀ (evs : List Conversation) (m : List (Int × Bucket)),
      (countLoop i m evs).map Prod.fst = m.map Prod.fst := by
  intro evs
  induction evs with
  | nil => intro m; rfl
  | cons c rest ih =>
    intro m
    cases hc : c.created_at with
    | none => simp only [countLoop, hc]; exact ih m
    | some t =>
      simp only [countLoop, hc]
      rw [ih, mapIncr_keys]

theorem countLoop_pairs (i : Int) :
    ∀ (evs : List Conversation) (m : List (Int × Bucket)),
      (countLoop i m evs).map (fun p => (p.1, p.2.label)) =
        m.map (fun p => (p.1, p.2.label)) := by
  intro evs
  induction evs with
  | nil => intro m; rfl
  | cons c rest ih =>
    intro m
    cases hc : c.created_at with
    | none => simp only [countLoop, hc]; exact ih m
    | some t =>
      simp only [countLoop, hc]
      rw [ih, mapIncr_pairs]

theorem countLoop_length (i : Int) (evs : List Conversation) (m : List (Int × Bucket)) :
    (countLoop i m evs).length = m.length := by
  have h := congrArg List.length (countLoop_keys i evs m)
  simpa using h

theorem countLoop_sum (i : Int) :
    ∀ (evs : List Conversation) (m : List (Int × Bucket)),
      (∀ c ∈ evs, ∃ t, c.created_at = some t ∧ bucketKey i t ∈ m.map Prod.fst) →
      bucketCountSum (countLoop i m evs) = bucketCountSum m + evs.length := by
  intro evs
  induction evs with
  | nil => intro m _; rfl
  | cons c rest ih =>
    intro m h
    obtain ⟨t, ht, hmem⟩ := h c (by simp)
    simp only [countLoop, ht]
    have hkeys : (mapIncr m (bucketKey i t)).map Prod.fst = m.map Prod.fst :=
      mapIncr_keys m _
    rw [ih (mapIncr m (bucketKey i t))
      (fun c2 hc2 => by
        obtain ⟨t2, ht2, hmem2⟩ := h c2 (List.mem_cons_of_mem _ hc2)
        exact ⟨t2, ht2, by rw [hkeys]; exact hmem2⟩)]
    rw [mapIncr_sum_mem hmem]
    simp only [List.length_cons]
    omega

-- The pre-sort bucket list already has strictly increasing keys, so the
-- sort of part_001 line 117 leaves it unchanged.

theorem initSeq_keys (fmt : Int → String) {i : Int} (hi : 0 < i) (n : Nat) (current : Int) :
    (initSeq fmt i current n).map Prod.fst =
      (List.range n).map (fun (k : Nat) => bucketKey i current + i * (k : Int)) := by
  have h := congrArg (List.map Prod.fst) (initSeq_pairs fmt hi n current)
  simpa [List.map_map, Function.comp] using h

theorem initSeq_keys_pairwise (fmt : Int → String) {i : Int} (hi : 0 < i)
    (n : Nat) (current : Int) :
    ((initSeq fmt i current n).map Prod.fst).Pairwise (· < ·) := by
  rw [initSeq_keys fmt hi]
  rw [List.pairwise_map]
  apply List.Pairwise.imp ?_ (List.pairwise_lt_range n)
  intro a b hab
  have : (a : Int) < (b : Int) := by exact_mod_cast hab
  have := Int.mul_lt_mul_of_pos_left this hi
  linarith

theorem entries_key_pairwise (fmt : Int → String) (r : TimeRange) (now : Int)
    (evs : List Conversation) :
    (countLoop (intervalMs r) (initBuckets fmt (intervalMs r) now (now - lookbackMs r))
        (evs.filter (inRange (now - lookbackMs r) now))).Pairwise
      (fun p q => p.1 < q.1) := by
  have hi := intervalMs_pos r
  have hpw : ((countLoop (intervalMs r)
      (initBuckets fmt (intervalMs r) now (now - lookbackMs r))
      (evs.filter (inRange (now - lookbackMs r) now))).map Prod.fst).Pairwise (· < ·) := by
    rw [countLoop_keys, initBuckets_eq fmt hi]
    exact initSeq_keys_pairwise fmt hi _ _
  rw [List.pairwise_map] at hpw
  exact hpw

theorem bucketEntries_eq (fmt : Int → String) (r : TimeRange) (now : Int)
    (evs : List Conversation) :
    bucketEntries fmt r now evs =
      countLoop (intervalMs r) (initBuckets fmt (intervalMs r) now (now - lookbackMs r))
        (evs.filter (inRange (now - lookbackMs r) now)) := by
  rw [bucketEntries]
  apply List.mergeSort_of_sorted
  apply List.Pairwise.imp ?_ (entries_key_pairwise fmt r now evs)
  intro a b hab
  exact decide_eq_true (le_of_lt hab)

-- Window-level facts: the iteration count at the start of the lookback
-- window, and the coverage of every in-range instant by a generated key.

theorem iterCount_start (r : TimeRange) (now : Int) :
    iterCount (intervalMs r) now (now - lookbackMs r) = (stepCount r).toNat + 1 := by
  have hi := intervalMs_pos r
  have hlb := lookbackMs_pos r
  have hle : now - lookbackMs r ≤ now := by linarith
  rw [iterCount, if_pos hle]
  have h1 : now - (now - lookbackMs r) = intervalMs r * stepCount r := by
    rw [← lookback_eq_steps]; ring
  rw [h1, Int.mul_fdiv_cancel_left _ hi.ne']

theorem fdiv_now_eq (r : TimeRange) (now : Int) :
    Int.fdiv now (intervalMs r) =
      Int.fdiv (now - lookbackMs r) (intervalMs r) + stepCount r := by
  have hi := intervalMs_pos r
  rw [Int.fdiv_eq_ediv _ hi.le, Int.fdiv_eq_ediv _ hi.le]
  have h1 : now = now - lookbackMs r + stepCount r * intervalMs r := by
    rw [mul_comm, ← lookback_eq_steps]; ring
  calc now / intervalMs r
      = (now - lookbackMs r + stepCount r * intervalMs r) / intervalMs r := by rw [← h1]
    _ = (now - lookbackMs r) / intervalMs r + stepCount r :=
        Int.add_mul_ediv_right _ _ hi.ne'

theorem bucketKey_mono {i : Int} (hi : 0 < i) {a b : Int} (h : a ≤ b) :
    Int.fdiv a i ≤ Int.fdiv b i := by
  rw [Int.fdiv_eq_ediv _ hi.le, Int.fdiv_eq_ediv _ hi.le]
  exact Int.ediv_le_ediv hi h

theorem bucketKey_mem_initKeys (fmt : Int → String) (r : TimeRange) {now t : Int}
    (h1 : now - lookbackMs r ≤ t) (h2 : t ≤ now) :
    bucketKey (intervalMs r) t ∈
      (initBuckets fmt (intervalMs r) now (now - lookbackMs r)).map Prod.fst := by
  have hi := intervalMs_pos r
  rw [initBuckets_eq fmt hi, initSeq_keys fmt hi, iterCount_start]
  set i := intervalMs r with hidef
  set start := now - lookbackMs r with hstart
  have hlo : Int.fdiv start i ≤ Int.fdiv t i := bucketKey_mono hi h1
  have hhi : Int.fdiv t i ≤ Int.fdiv now i := bucketKey_mono hi h2
  have hnow : Int.fdiv now i = Int.fdiv start i + stepCount r := fdiv_now_eq r now
  set d : Int := Int.fdiv t i - Int.fdiv start i with hd
  have hd0 : 0 ≤ d := by omega
  have hdle : d ≤ stepCount r := by omega
  refine List.mem_map.mpr ⟨d.toNat, List.mem_range.mpr ?_, ?_⟩
  · have := stepCount_nonneg r
    omega
  · have hcast : ((d.toNat : Int)) = d := Int.toNat_of_nonneg hd0
    rw [hcast]
    unfold bucketKey
    rw [hd]
    ring

-- Derived facts about the sorted bucket series.

theorem entries_length (fmt : Int → String) (r : TimeRange) (now : Int)
    (evs : List Conversation) :
    (bucketEntries fmt r now evs).length = (stepCount r).toNat + 1 := by
  rw [bucketEntries_eq, countLoop_length, initBuckets_eq fmt (intervalMs_pos r),
    initSeq_length, iterCount_start]

theorem entries_pairs (fmt : Int → String) (r : TimeRange) (now : Int)
    (evs : List Conversation) :
    (bucketEntries fmt r now evs).map (fun p => (p.1, p.2.label)) =
      (List.range ((stepCount r).toNat + 1)).map
        (fun (k : Nat) =>
          (bucketKey (intervalMs r) (now - lookbackMs r) + intervalMs r * (k : Int),
           fmt ((now - lookbackMs r) + intervalMs r * (k : Int)))) := by
  rw [bucketEntries_eq, countLoop_pairs, initBuckets_eq fmt (intervalMs_pos r),
    initSeq_pairs fmt (intervalMs_pos r), iterCount_start]

theorem entries_keys (fmt : Int → String) (r : TimeRange) (now : Int)
    (evs : List Conversation) :
    (bucketEntries fmt r now evs).map Prod.fst =
      (List.range ((stepCount r).toNat + 1)).map
        (fun (k : Nat) =>
          bucketKey (intervalMs r) (now - lookbackMs r) + intervalMs r * (k : Int)) := by
  rw [bucketEntries_eq, countLoop_keys, initBuckets_eq fmt (intervalMs_pos r),
    initSeq_keys fmt (intervalMs_pos r), iterCount_start]

theorem inRange_iff (start now : Int) (c : Conversation) :
    inRange start now c = true ↔ ∃ t, c.created_at = some t ∧ start ≤ t ∧ t ≤ now := by
  cases hc : c.created_at with
  | none => simp [inRange, hc]
  | some t => simp [inRange, hc]

theorem entries_sum (fmt : Int → String) (r : TimeRange) (now : Int)
    (evs : List Conversation) :
    bucketCountSum (bucketEntries fmt r now evs) =
      (evs.filter (inRange (now - lookbackMs r) now)).length := by
  rw [bucketEntries_eq]
  rw [countLoop_sum (intervalMs r) _ _ ?cov]
  case cov =>
    intro c hc
    have hmem := List.mem_filter.mp hc
    obtain ⟨t, ht, hlo, hhi⟩ := (inRange_iff _ _ c).mp hmem.2
    exact ⟨t, ht, bucketKey_mem_initKeys fmt r hlo hhi⟩
  rw [initBuckets_eq fmt (intervalMs_pos r), initSeq_sum]
  omega

-- Pagination: the pages `1 .. ceil(length / pageSize)` of `slice` calls
-- concatenate back to the sorted list.

theorem pages_flatten {α : Type} {s : Nat} (hs : 0 < s) :
    ∀ (n : Nat) (l : List α), (l.length + s - 1) / s = n →
      ((List.range n).map fun j => (l.drop (j * s)).take s).flatten = l := by
  intro n
  induction n with
  | zero =>
    intro l hn
    have hlt : l.length + s - 1 < s := (Nat.div_eq_zero_iff hs).mp hn
    have hlen : l.length = 0 := by omega
    rw [List.length_eq_zero.mp hlen]
    rfl
  | succ n ih =>
    intro l hn
    have hpos : 0 < l.length := by
      by_contra hc
      push_neg at hc
      have h0 : l.length = 0 := by omega
      rw [h0] at hn
      have : (0 + s - 1) / s = 0 := (Nat.div_eq_zero_iff hs).mpr (by omega)
      omega
    have hsplit : l.length + s - 1 = (l.length - 1) + s := by omega
    have hn2 : (l.length - 1) / s = n := by
      rw [hsplit, Nat.add_div_right _ hs] at hn
      omega
    have hdroplen : ((l.drop s).length + s - 1) / s = n := by
      rw [List.length_drop]
      by_cases hls : s ≤ l.length
      · have : l.length - s + s - 1 = l.length - 1 := by omega
        rw [this, hn2]
      · have h1 : l.length - s = 0 := by omega
        have h2 : l.length - 1 < s := by omega
        rw [h1]
        rw [← hn2]
        rw [(Nat.div_eq_zero_iff hs).mpr (by omega), (Nat.div_eq_zero_iff hs).mpr h2]
    rw [List.range_succ_eq_map, List.map_cons, List.flatten_cons, List.map_map]
    have hhead : ((l.drop (0 * s)).take s) = l.take s := by simp
    have htail :
        (List.range n).map ((fun j => (l.drop (j * s)).take s) ∘ Nat.succ) =
          (List.range n).map fun j => ((l.drop s).drop (j * s)).take s := by
      apply List.map_congr_left
      intro j _
      simp only [Function.comp_apply]
      rw [List.drop_drop]
      have : s + j * s = Nat.succ j * s := by
        rw [Nat.succ_eq_add_one]
        ring
      rw [this]
    rw [hhead, htail, ih (l.drop s) hdroplen, List.take_append_drop]

-- Shared bridge: the chart-point count sum equals the number of events
-- surviving the range filter.

theorem chart_sum_eq_filter (fmt : Int → String) (r : TimeRange) (now : Int)
    (evs : List Conversation) :
    chartCountSum (chartData fmt r now evs) =
      (evs.filter (inRange (now - lookbackMs r) now)).length := by
  have h1 : chartCountSum (chartData fmt r now evs) =
      bucketCountSum (bucketEntries fmt r now evs) := by
    simp only [chartData, chartCountSum, bucketCountSum, List.map_map]
    rfl
  rw [h1, entries_sum]

/-- C1: for every event collection and every range, the bucketized series
has exactly `ceil((now - startTime) / intervalMs) + 1` buckets, namely 13
for 12h, 13 for 1d, 8 for 7d and 31 for 30d; the length is independent of
the events (and of the formatter). -/
theorem c1_bucket_count (fmt : Int → String) (r : TimeRange) (now : Int)
    (evs : List Conversation) :
    (chartData fmt r now evs).length = ceilBuckets r ∧
      ceilBuckets TimeRange.h12 = 13 ∧ ceilBuckets TimeRange.d1 = 13 ∧
      ceilBuckets TimeRange.d7 = 8 ∧ ceilBuckets TimeRange.d30 = 31 := by
  refine ⟨?_, by decide, by decide, by decide, by decide⟩
  rw [chartData, List.length_map, entries_length]
  cases r <;> decide

/-- C2: the sum of all bucket counts equals the number of events in the
closed window `[now - lookback, now]`, hence is at most `evs.length`, with
equality exactly when every event timestamp parses and lies in the window;
moreover the computed key of every in-range event has a bucket in the
series, so the silent-drop guard never fires for an in-range event. -/
theorem c2_counts (fmt : Int → String) (r : TimeRange) (now : Int)
    (evs : List Conversation) :
    chartCountSum (chartData fmt r now evs) =
        (evs.filter (inRange (now - lookbackMs r) now)).length ∧
      chartCountSum (chartData fmt r now evs) ≤ evs.length ∧
      (chartCountSum (chartData fmt r now evs) = evs.length ↔
        ∀ c ∈ evs, ∃ t, c.created_at = some t ∧ now - lookbackMs r ≤ t ∧ t ≤ now) ∧
      (∀ c ∈ evs, ∀ t, c.created_at = some t → now - lookbackMs r ≤ t → t ≤ now →
        bucketKey (intervalMs r) t ∈ (bucketEntries fmt r now evs).map Prod.fst) := by
  have hsum := chart_sum_eq_filter fmt r now evs
  refine ⟨hsum, ?_, ?_, ?_⟩
  · rw [hsum]
    exact List.length_filter_le _ _
  · rw [hsum]
    rw [← List.countP_eq_length_filter]
    rw [List.countP_eq_length]
    constructor
    · intro h c hc
      exact (inRange_iff _ _ c).mp (h c hc)
    · intro h c hc
      exact (inRange_iff _ _ c).mpr (h c hc)
  · intro c _ t _ hlo hhi
    rw [bucketEntries_eq, countLoop_keys]
    exact bucketKey_mem_initKeys fmt r hlo hhi

/-- C2 witness: a concrete in-range event whose key has a bucket. -/
theorem c2_counts_witness :
    bucketKey (intervalMs TimeRange.h12) 0 ∈
      (bucketEntries (fun _ => "") TimeRange.h12 43200000
        [⟨"c1", "u1", some 0⟩]).map Prod.fst :=
  (c2_counts (fun _ => "") TimeRange.h12 43200000 [⟨"c1", "u1", some 0⟩]).2.2.2
    ⟨"c1", "u1", some 0⟩ (by decide) 0 rfl (by decide) (by decide)

/-- C6: the emitted series is strictly ascending by the underlying
interval-aligned key: no duplicate keys and no inversions. -/
theorem c6_strictly_ascending (fmt : Int → String) (r : TimeRange) (now : Int)
    (evs : List Conversation) :
    (bucketEntries fmt r now evs).Pairwise (fun p q => p.1 < q.1) := by
  rw [bucketEntries_eq]
  exact entries_key_pairwise fmt r now evs

/-- C3 counterexample: the original claim says every bucket label is the
formatter applied to the interval-aligned key instant, the applied instant
and the key being equal.  With `now = 45000000` (not a multiple of the one
hour interval of the 12h range) the first step instant is `1800000` while
its aligned key is `0`, so with the value-revealing formatter `toString`
the label differs from the formatter applied to the key. -/
theorem c3_label_counterexample :
    ¬ (∀ p ∈ bucketEntries (fun t => toString t) TimeRange.h12 45000000 [],
        p.2.label = toString p.1) := by
  rw [bucketEntries_eq]
  decide

/-- C3 (amended): each bucket label is the formatter applied to the step
instant `startTime + k * intervalMs`, whose aligned key is the bucket key;
the applied instant coincides with the key exactly when `now` (equivalently
`startTime`) is a multiple of the interval, in which case the original
claim holds. -/
theorem c3_labels_amended (fmt : Int → String) (r : TimeRange) (now : Int)
    (evs : List Conversation) :
    ((bucketEntries fmt r now evs).map fun p => (p.1, p.2.label)) =
      (List.range ((stepCount r).toNat + 1)).map
        (fun (k : Nat) =>
          (bucketKey (intervalMs r) (now - lookbackMs r) + intervalMs r * (k : Int),
           fmt ((now - lookbackMs r) + intervalMs r * (k : Int)))) ∧
    (intervalMs r ∣ now →
      (bucketEntries fmt r now evs).map (fun p => p.2.label) =
        (bucketEntries fmt r now evs).map (fun p => fmt p.1)) := by
  refine ⟨entries_pairs fmt r now evs, ?_⟩
  intro hdvd
  apply List.map_congr_left
  intro p hp
  have hpair : (p.1, p.2.label) ∈
      (bucketEntries fmt r now evs).map (fun p => (p.1, p.2.label)) :=
    List.mem_map_of_mem _ hp
  rw [entries_pairs] at hpair
  obtain ⟨k, _, heq⟩ := List.mem_map.mp hpair
  have hstart_dvd : intervalMs r ∣ (now - lookbackMs r) :=
    dvd_sub hdvd ⟨stepCount r, lookback_eq_steps r⟩
  have hbk : bucketKey (intervalMs r) (now - lookbackMs r) = now - lookbackMs r := by
    unfold bucketKey
    rw [Int.fdiv_eq_ediv _ (intervalMs_pos r).le]
    exact Int.ediv_mul_cancel hstart_dvd
  rw [Prod.mk.injEq] at heq
  rw [← heq.2, ← heq.1, hbk]

/-- C3 witness: with `now` a whole multiple of the one hour interval the
amended claim recovers the original one at a concrete input. -/
theorem c3_labels_witness :
    (bucketEntries (fun t => toString t) TimeRange.h12 43200000 []).map
        (fun p => p.2.label) =
      (bucketEntries (fun t => toString t) TimeRange.h12 43200000 []).map
        (fun p => toString p.1) :=
  (c3_labels_amended (fun t => toString t) TimeRange.h12 43200000 []).2 (by decide)

/-- C4: the range filter is closed on both ends: an event whose timestamp
is exactly `startTime` or exactly `now` passes the filter and is counted
(the total count rises by one); concretely, for the 12h range with `now`
at 2024-01-02T12:00:00Z (epoch ms 1704196800000) an event at exactly
2024-01-02T00:00:00Z (epoch ms 1704153600000, the computed `startTime`)
lands in the first bucket of the series. -/
theorem c4_closed_boundaries :
    (∀ (fmt : Int → String) (r : TimeRange) (now : Int) (evs : List Conversation)
        (e : Conversation) (t : Int), e.created_at = some t →
        (t = now - lookbackMs r ∨ t = now) →
        inRange (now - lookbackMs r) now e = true ∧
          chartCountSum (chartData fmt r now (e :: evs)) =
            chartCountSum (chartData fmt r now evs) + 1) ∧
      (bucketEntries (fun _ => "") TimeRange.h12 1704196800000
          [⟨"c1", "u1", some 1704153600000⟩]).head? =
        some (1704153600000, ⟨"", 1⟩) := by
  constructor
  · intro fmt r now evs e t ht hor
    have hlb := lookbackMs_pos r
    have hin : inRange (now - lookbackMs r) now e = true := by
      rcases hor with h | h
      · simp only [inRange, ht, h]
        simp only [Bool.and_eq_true, decide_eq_true_eq]
        omega
      · simp only [inRange, ht, h]
        simp only [Bool.and_eq_true, decide_eq_true_eq]
        omega
    refine ⟨hin, ?_⟩
    rw [chart_sum_eq_filter, chart_sum_eq_filter, List.filter_cons, hin]
    simp
  · rw [bucketEntries_eq]
    decide

/-- C4 witness: the general boundary statement at a concrete input: an
event exactly at the computed `startTime` passes the filter and raises the
total count by one. -/
theorem c4_closed_boundaries_witness :
    inRange (43200000 - lookbackMs TimeRange.h12) 43200000 ⟨"c1", "u1", some 0⟩ = true ∧
      chartCountSum (chartData (fun _ => "") TimeRange.h12 43200000
          [⟨"c1", "u1", some 0⟩]) =
        chartCountSum (chartData (fun _ => "") TimeRange.h12 43200000 []) + 1 :=
  c4_closed_boundaries.1 (fun _ => "") TimeRange.h12 43200000 [] ⟨"c1", "u1", some 0⟩ 0
    rfl (Or.inl (by decide))

/-- C5: bucket keys are absolute-epoch-aligned, not `startTime`-aligned:
any interval-aligned instant whose interval fits inside the lookback
windows of two computations with the same range is a key of both outputs,
whatever the events and `now` values are. -/
theorem c5_stable_keys (fmt1 fmt2 : Int → String) (r : TimeRange)
    (now1 now2 : Int) (evs1 evs2 : List Conversation) (K : Int)
    (hdvd : intervalMs r ∣ K)
    (ha1 : now1 - lookbackMs r ≤ K) (ha2 : K + intervalMs r ≤ now1)
    (hb1 : now2 - lookbackMs r ≤ K) (hb2 : K + intervalMs r ≤ now2) :
    K ∈ (bucketEntries fmt1 r now1 evs1).map Prod.fst ∧
      K ∈ (bucketEntries fmt2 r now2 evs2).map Prod.fst := by
  have hi := intervalMs_pos r
  have hbk : bucketKey (intervalMs r) K = K := by
    unfold bucketKey
    rw [Int.fdiv_eq_ediv _ hi.le]
    exact Int.ediv_mul_cancel hdvd
  constructor
  · rw [bucketEntries_eq, countLoop_keys]
    have := bucketKey_mem_initKeys fmt1 r ha1 (by linarith : K ≤ now1)
    rwa [hbk] at this
  · rw [bucketEntries_eq, countLoop_keys]
    have := bucketKey_mem_initKeys fmt2 r hb1 (by linarith : K ≤ now2)
    rwa [hbk] at this

/-- C5 witness: the bucket keyed at epoch ms 3600000 appears in two 12h
series computed one hour apart. -/
theorem c5_stable_keys_witness :
    (3600000 : Int) ∈
        (bucketEntries (fun _ => "") TimeRange.h12 43200000 []).map Prod.fst ∧
      (3600000 : Int) ∈
        (bucketEntries (fun _ => "") TimeRange.h12 46800000 []).map Prod.fst :=
  c5_stable_keys (fun _ => "") (fun _ => "") TimeRange.h12 43200000 46800000 [] []
    3600000 (by decide) (by decide) (by decide) (by decide) (by decide)

/-- C7: an event whose timestamp does not parse (`NaN` date) fails both
range comparisons, contributes to no bucket, and the computation still
returns the full series: prepending such an event leaves the output
unchanged. -/
theorem c7_nan_dropped (fmt : Int → String) (r : TimeRange) (now : Int)
    (evs : List Conversation) (e : Conversation) (h : e.created_at = none) :
    chartData fmt r now (e :: evs) = chartData fmt r now evs := by
  have hfalse : inRange (now - lookbackMs r) now e = false := by
    simp [inRange, h]
  rw [chartData, chartData, bucketEntries_eq, bucketEntries_eq, List.filter_cons, hfalse]
  simp

/-- C7 witness: a concrete unparseable-timestamp event is dropped. -/
theorem c7_nan_dropped_witness :
    chartData (fun _ => "") TimeRange.h12 43200000 [⟨"bad", "u1", none⟩] =
      chartData (fun _ => "") TimeRange.h12 43200000 [] :=
  c7_nan_dropped (fun _ => "") TimeRange.h12 43200000 [] ⟨"bad", "u1", none⟩ rfl

-- The bucketizer reads nothing of an event but its parsed timestamp.

theorem inRange_congr (start now : Int) {c c2 : Conversation}
    (h : c.created_at = c2.created_at) :
    inRange start now c = inRange start now c2 := by
  rw [inRange, inRange, h]

theorem countLoop_filter_congr (i start now : Int) :
    ∀ (evs evs2 : List Conversation),
      evs.map Conversation.created_at = evs2.map Conversation.created_at →
      ∀ m, countLoop i m (evs.filter (inRange start now)) =
        countLoop i m (evs2.filter (inRange start now)) := by
  intro evs
  induction evs with
  | nil =>
    intro evs2 h m
    cases evs2 with
    | nil => rfl
    | cons c rest => simp at h
  | cons c rest ih =>
    intro evs2 h m
    cases evs2 with
    | nil => simp at h
    | cons c2 rest2 =>
      rw [List.map_cons, List.map_cons] at h
      have hc : c.created_at = c2.created_at := by
        exact (List.cons.injEq _ _ _ _ ▸ h).1
      have hrest : rest.map Conversation.created_at = rest2.map Conversation.created_at := by
        exact (List.cons.injEq _ _ _ _ ▸ h).2
      rw [List.filter_cons, List.filter_cons, inRange_congr start now hc]
      cases hb : inRange start now c2 with
      | false =>
        rw [if_neg (by simp : ¬ (false = true)), if_neg (by simp : ¬ (false = true))]
        exact ih rest2 hrest m
      | true =>
        rw [if_pos rfl, if_pos rfl]
        have hstep : (match c.created_at with
            | some t => mapIncr m (bucketKey i t)
            | none => m) =
          (match c2.created_at with
            | some t => mapIncr m (bucketKey i t)
            | none => m) := by rw [hc]
        simp only [countLoop]
        rw [hstep]
        exact ih rest2 hrest _

/-- C8: the bucketizer is a pure function of `(events, range, now)` (and
the formatter): it is a Lean function, so identical inputs give identical
outputs with no hidden state; moreover within the events only the parsed
timestamps matter, so any two event lists with the same timestamp
projection give the same series. -/
theorem c8_pure (fmt : Int → String) (r : TimeRange) (now : Int)
    (evs evs2 : List Conversation)
    (h : evs.map Conversation.created_at = evs2.map Conversation.created_at) :
    chartData fmt r now evs = chartData fmt r now evs2 := by
  rw [chartData, chartData, bucketEntries_eq, bucketEntries_eq,
    countLoop_filter_congr (intervalMs r) (now - lookbackMs r) now evs evs2 h]

/-- C8 witness: two concrete runs whose events agree on timestamps but
differ in every other field give identical output. -/
theorem c8_pure_witness :
    chartData (fun _ => "") TimeRange.h12 43200000 [⟨"a", "u1", some 5⟩] =
      chartData (fun _ => "") TimeRange.h12 43200000 [⟨"b", "u2", some 5⟩] :=
  c8_pure (fun _ => "") TimeRange.h12 43200000 [⟨"a", "u1", some 5⟩]
    [⟨"b", "u2", some 5⟩] rfl

-- The reduce of part_002 line 389 as a map-sum.

theorem foldl_rating_sum :
    ∀ (l : List ConversationInfo) (a : Rat),
      l.foldl (fun s conv => s + conv.quality_rating.getD 0) a =
        a + (l.map fun c => c.quality_rating.getD 0).sum := by
  intro l
  induction l with
  | nil => intro a; simp
  | cons c rest ih =>
    intro a
    rw [List.foldl_cons, ih, List.map_cons, List.sum_cons]
    ring

/-- C9: `calculateAverageRating` returns `0` when no conversation has a
truthy `quality_rating`, and otherwise the sum of `quality_rating` over all
conversations (missing ratings contributing `0`) divided by the number of
conversations whose rating is truthy; a rating of exactly `0` is falsy and
so excluded from the denominator, and the division-by-zero branch is
unreachable because the denominator is nonzero whenever it is used. -/
theorem c9_average_rating (conversations : List ConversationInfo) :
    calculateAverageRating conversations = averageRatingSpec conversations ∧
      ((∃ c ∈ conversations, truthyRating c.quality_rating = true) →
        (conversations.filter fun c => truthyRating c.quality_rating).length ≠ 0) := by
  constructor
  · rw [calculateAverageRating, averageRatingSpec]
    by_cases hn : (conversations.filter fun c => truthyRating c.quality_rating).length = 0
    · rw [if_pos hn, if_pos ?none]
      case none =>
        intro c hc
        have hnil : conversations.filter (fun c => truthyRating c.quality_rating) = [] :=
          List.length_eq_zero.mp hn
        have := List.filter_eq_nil_iff.mp hnil c hc
        simpa using this
    · rw [if_neg hn, if_neg ?someone]
      case someone =>
        intro hall
        apply hn
        rw [List.length_eq_zero, List.filter_eq_nil_iff]
        intro c hc
        simp [hall c hc]
      rw [foldl_rating_sum, zero_add, List.countP_eq_length_filter]
  · intro ⟨c, hc, htruthy⟩
    have : c ∈ conversations.filter fun c => truthyRating c.quality_rating :=
      List.mem_filter.mpr ⟨hc, htruthy⟩
    have hpos := List.length_pos.mpr (List.ne_nil_of_mem this)
    omega

/-- C9 witness: a concrete list with one rated conversation has a nonzero
denominator. -/
theorem c9_average_rating_witness :
    (([⟨"t", "u", 0, some 4⟩] : List ConversationInfo).filter
        fun c => truthyRating c.quality_rating).length ≠ 0 :=
  (c9_average_rating [⟨"t", "u", 0, some 4⟩]).2 ⟨⟨"t", "u", 0, some 4⟩, by decide, by decide⟩

-- Sortedness of the descending mergeSort comparators.

theorem sortedConversations_pairwise (conversations : List ConversationInfo) :
    (sortedConversations conversations).Pairwise
      (fun a b => b.generated_at ≤ a.generated_at) := by
  have h := @List.sorted_mergeSort ConversationInfo
    (fun a b => decide (b.generated_at ≤ a.generated_at))
    (fun a b c hab hbc => by
      simp only [decide_eq_true_eq] at *
      exact le_trans hbc hab)
    (fun a b => by
      simp only [Bool.or_eq_true, decide_eq_true_eq]
      exact le_total b.generated_at a.generated_at)
    conversations
  exact h.imp fun hab => of_decide_eq_true hab

theorem sortedNotes_pairwise (notes : List NoteInfo) :
    (sortedNotes notes).Pairwise (fun a b => b.created_at ≤ a.created_at) := by
  have h := @List.sorted_mergeSort NoteInfo
    (fun a b => decide (b.created_at ≤ a.created_at))
    (fun a b c hab hbc => by
      simp only [decide_eq_true_eq] at *
      exact le_trans hbc hab)
    (fun a b => by
      simp only [Bool.or_eq_true, decide_eq_true_eq]
      exact le_total b.created_at a.created_at)
    notes
  exact h.imp fun hab => of_decide_eq_true hab

/-- C10: each rendered page is the `(p-1)*size .. p*size` slice of the
input sorted descending by its timestamp field; the sorted list is a
permutation of the input in descending timestamp order, every page holds at
most `pageSize` items (50 for conversations, 25 for notes), and the pages
`1 .. ceil(length / pageSize)` concatenate back to the whole sorted list,
so they partition it without overlap or omission. -/
theorem c10_pagination (conversations : List ConversationInfo) (notes : List NoteInfo) :
    (sortedConversations conversations).Perm conversations ∧
      (sortedConversations conversations).Pairwise
        (fun a b => b.generated_at ≤ a.generated_at) ∧
      (∀ p, currentConversations conversations p =
        ((sortedConversations conversations).drop ((p - 1) * 50)).take 50) ∧
      (∀ p, (currentConversations conversations p).length ≤ 50) ∧
      ((List.range (totalPagesConv conversations)).map
          (fun j => currentConversations conversations (j + 1))).flatten =
        sortedConversations conversations ∧
      (sortedNotes notes).Perm notes ∧
      (sortedNotes notes).Pairwise (fun a b => b.created_at ≤ a.created_at) ∧
      (∀ p, currentNotes notes p =
        ((sortedNotes notes).drop ((p - 1) * 25)).take 25) ∧
      (∀ p, (currentNotes notes p).length ≤ 25) ∧
      ((List.range (totalPagesNotes notes)).map
          (fun j => currentNotes notes (j + 1))).flatten = sortedNotes notes := by
  refine ⟨List.mergeSort_perm conversations _, sortedConversations_pairwise conversations,
    fun p => rfl, fun p => List.length_take_le _ _, ?_, List.mergeSort_perm notes _,
    sortedNotes_pairwise notes, fun p => rfl, fun p => List.length_take_le _ _, ?_⟩
  · have hmap : (List.range (totalPagesConv conversations)).map
        (fun j => currentConversations conversations (j + 1)) =
      (List.range (totalPagesConv conversations)).map
        (fun j => ((sortedConversations conversations).drop
          (j * conversationsPerPage)).take conversationsPerPage) := by
      apply List.map_congr_left
      intro j _
      rw [currentConversations, Nat.add_sub_cancel]
    rw [hmap]
    apply pages_flatten (by decide : 0 < conversationsPerPage)
    rw [totalPagesConv]
    have : (sortedConversations conversations).length = conversations.length :=
      List.length_mergeSort conversations
    rw [this]
  · have hmap : (List.range (totalPagesNotes notes)).map
        (fun j => currentNotes notes (j + 1)) =
      (List.range (totalPagesNotes notes)).map
        (fun j => ((sortedNotes notes).drop (j * notesPerPage)).take notesPerPage) := by
      apply List.map_congr_left
      intro j _
      rw [currentNotes, Nat.add_sub_cancel]
    rw [hmap]
    apply pages_flatten (by decide : 0 < notesPerPage)
    rw [totalPagesNotes]
    have : (sortedNotes notes).length = notes.length := List.length_mergeSort notes
    rw [this]
